import Mathlib

/-!
Verification of the `leech` concurrent download manager.

This file shallowly embeds the pure decision logic of the Go sources
(`app/helpers.go`, `app/download.go`, `app/app.go`, the rate limiter and the
progress renderer) as executable Lean definitions, and proves the
specification claims about them.

Conventions of the embedding:
* Go `int`/`int64` values are modelled as `ℤ` (with explicit truncation where
  the source truncates); Go `uint`-free code needs no wraparound model here
  because every operation proved about stays far from 2^63.
* Go `float64` computations are modelled as exact rational arithmetic
  expressed over `ℤ` (numerator/denominator pairs or scaled integers).  On
  every concrete input appearing in a theorem below the float computation is
  exact, so the model and the source agree there.
* Effectful code (HTTP responses, file-system calls) is modelled by passing
  the outcome of each external call as an explicit argument and returning the
  visible actions as data.
-/

namespace Leech

/-! ### Chunk planner (`app/helpers.go`, `getChunks`) -/

/-- The loop body of `getChunks`: Go iterates `chunkSize` times, each round
emitting `[start, end]` with `end = start + chunkLen - 1`, extended by one
byte while `remainder > 0`. -/
def chunkLoop : ℤ → ℤ → ℤ → ℕ → List (ℤ × ℤ)
  | _, _, _, 0 => []
  | start, chunkLen, remainder, Nat.succ k =>
      if 0 < remainder then
        (start, start + chunkLen) :: chunkLoop (start + chunkLen + 1) chunkLen (remainder - 1) k
      else
        (start, start + chunkLen - 1) :: chunkLoop (start + chunkLen) chunkLen remainder k

/-- `getChunks` from `app/helpers.go`: splits `[0, length-1]` into
`min(chunkSize, length)` contiguous inclusive ranges.  Returns `[]` (Go:
`nil`) for non-positive inputs.  Go divides positive `int64`s, where `/` and
`%` agree with Euclidean division used here. -/
def getChunks (length : ℤ) (chunkSize : ℤ) : List (ℤ × ℤ) :=
  if length ≤ 0 ∨ chunkSize ≤ 0 then []
  else
    let n := if length < chunkSize then length else chunkSize
    chunkLoop 0 (length / n) (length % n) n.toNat

/-- The sizes (`end - start + 1`) of a chunk list. -/
def chunkSizes (cs : List (ℤ × ℤ)) : List ℤ :=
  cs.map (fun p => p.2 - p.1 + 1)

/-- Total number of bytes covered by a chunk list. -/
def chunksSpan (cs : List (ℤ × ℤ)) : ℤ :=
  (chunkSizes cs).sum

/-- `contiguousFrom s cs`: the ranges in `cs` are non-empty, start exactly at
`s`, and follow each other without gaps or overlaps. -/
def contiguousFrom : ℤ → List (ℤ × ℤ) → Prop
  | _, [] => True
  | s, p :: rest => p.1 = s ∧ p.1 ≤ p.2 ∧ contiguousFrom (p.2 + 1) rest

/-! ### Token-bucket rate limiter (`ratelimit.go`) -/

/-- The `rateLimiter` struct.  `lastRefill` is a timestamp in nanoseconds
(Go's `time.Time`/`time.Duration` carry int64 nanoseconds; the mutex only
serialises access and has no sequential meaning). -/
structure rateLimiter where
  rate : ℤ
  tokens : ℤ
  lastRefill : ℤ
deriving DecidableEq

/-- `newRateLimiter`: the bucket starts full (`tokens = rate`). -/
def newRateLimiter (bytesPerSecond : ℤ) (now : ℤ) : rateLimiter :=
  { rate := bytesPerSecond, tokens := bytesPerSecond, lastRefill := now }

/-- The refill step at the top of `waitForTokens`.  Go computes
`int64(elapsed.Seconds() * float64(rate))`; with `elapsed` in nanoseconds the
exact value is `elapsed * rate / 10^9`, modelled here with Euclidean division
(floor).  Truncation toward zero and floor only differ when the product is
negative, where both fail the `0 < newTokens` guard, so the step function is
the same (up to float rounding of huge products, which cannot change the
invariants proved below). -/
def refill (rl : rateLimiter) (now : ℤ) : rateLimiter :=
  let newTokens := (now - rl.lastRefill) * rl.rate / 1000000000
  if 0 < newTokens then
    { rl with tokens := min (rl.tokens + newTokens) rl.rate, lastRefill := now }
  else rl

/-- `waitForTokens`: each loop iteration observes a timestamp from the
schedule `times`, refills, and either takes `n` tokens or sleeps (moves to
the next timestamp).  `none` models the Go loop spinning past the end of the
schedule. -/
def waitForTokens : rateLimiter → ℤ → List ℤ → Option (rateLimiter × List ℤ)
  | _, _, [] => none
  | rl, n, now :: rest =>
      if n ≤ (refill rl now).tokens then
        some ({ refill rl now with tokens := (refill rl now).tokens - n }, rest)
      else waitForTokens (refill rl now) n rest

/-- The `for remaining > 0` loop of `wait`, with the requests it issues
returned alongside the final state.  `fuel` bounds the iteration count;
`wait` passes `n.toNat`, which suffices whenever `rate ≥ 1` because every
iteration consumes `min remaining rate ≥ 1` (a `none` result models
non-termination of the Go loop, e.g. for an exhausted time schedule). -/
def waitLoop : rateLimiter → ℤ → List ℤ → ℕ → Option rateLimiter × List ℤ
  | rl, remaining, _, 0 => if remaining ≤ 0 then (some rl, []) else (none, [])
  | rl, remaining, times, Nat.succ fuel =>
      if remaining ≤ 0 then (some rl, [])
      else
        match waitForTokens rl (min remaining rl.rate) times with
        | none => (none, [min remaining rl.rate])
        | some (rl', rest) =>
            ((waitLoop rl' (remaining - min remaining rl.rate) rest fuel).1,
              min remaining rl.rate ::
                (waitLoop rl' (remaining - min remaining rl.rate) rest fuel).2)

/-- `wait`: no-op when `rate = 0`, otherwise the internal splitting loop
(`request = min remaining rate` per iteration). -/
def wait (rl : rateLimiter) (n : ℤ) (times : List ℤ) : Option rateLimiter × List ℤ :=
  if rl.rate = 0 then (some rl, [])
  else waitLoop rl n times n.toNat

/-- The token-bucket invariant of the specification. -/
def Inv (rl : rateLimiter) : Prop :=
  0 ≤ rl.tokens ∧ rl.tokens ≤ rl.rate

/-! ### Download orchestration (`app/download.go`) -/

/-- The `resource` struct (chunk offsets and length are `int64`). -/
structure resource where
  chunks : List (ℤ × ℤ)
  url : String
  filename : String
  contentType : String
  length : ℤ
deriving DecidableEq

/-- The `downloadResult` struct sent on the `done` channel. -/
structure downloadResult where
  size : ℤ
  ok : Bool
deriving DecidableEq

/-- The externally observable outcome of one chunk task (`fetchToFile`): the
HTTP status answering its range GET, whether the streamed copy succeeded, and
the byte count `io.Copy` reported written. -/
structure chunkOutcome where
  status : ℤ
  copyOk : Bool
  written : ℤ
deriving DecidableEq

/-- `fetchToFile`'s failure condition for the chunk `[start, end]`: a status
other than 206/200, a read/write error during the copy, or a written byte
count different from `end - start + 1` (the size-mismatch error). -/
def fetchToFileFails (chunk : ℤ × ℤ) (o : chunkOutcome) : Bool :=
  (!(o.status == 206) && !(o.status == 200)) || !o.copyOk ||
    !(o.written == chunk.2 - chunk.1 + 1)

/-- File-system actions a download performs on its `.part` file, plus the
hand-off to the single-stream path. -/
inductive fsEvent
  | openedPart
  | closedPart
  | removedPart
  | renamedPart
  | singleStream
deriving DecidableEq

/-- `downloadChunked`: opens and pre-allocates the `.part` file, runs one
fetch task per chunk, always closes the file after the tasks drain, and
returns `false` (triggering the caller's fallback) when any task failed or
finalizing fails.  `openOk`/`allocOk`/`finalizeOk` carry the outcomes of the
corresponding file-system calls; the chunk tasks' outcomes are paired
positionally with the planned chunks. -/
def downloadChunked (chunks : List (ℤ × ℤ)) (openOk allocOk : Bool)
    (outcomes : List chunkOutcome) (finalizeOk : Bool) : List fsEvent × Bool :=
  if !openOk then ([], false)
  else if !allocOk then ([.openedPart, .closedPart], false)
  else if (chunks.zip outcomes).any (fun p => fetchToFileFails p.1 p.2) then
    ([.openedPart, .closedPart], false)
  else if finalizeOk then ([.openedPart, .closedPart, .renamedPart], true)
  else ([.openedPart, .closedPart], false)

/-- `download`: tries the chunked path when a chunk plan exists, deletes the
`.part` and falls back to single-stream when it reports failure, and—via its
`defer`—sends exactly one `downloadResult` on `done`: size `max(length, 0)`
on success, size `0` on failure.  The single-stream sub-call is abstracted by
its success bit `singleOk` (its internals are modelled by `downloadSingle`
below). -/
def download (r : resource) (openOk allocOk : Bool) (outcomes : List chunkOutcome)
    (chunkFinalizeOk singleOk : Bool) : List fsEvent × List downloadResult :=
  if r.chunks = [] then
    ([.singleStream], [⟨if singleOk then max r.length 0 else 0, singleOk⟩])
  else
    match downloadChunked r.chunks openOk allocOk outcomes chunkFinalizeOk with
    | (ev, true) => (ev, [⟨max r.length 0, true⟩])
    | (ev, false) =>
        (ev ++ [.removedPart, .singleStream],
          [⟨if singleOk then max r.length 0 else 0, singleOk⟩])

/-- Everything one resource's download depends on. -/
structure downloadInput where
  r : resource
  openOk : Bool
  allocOk : Bool
  outcomes : List chunkOutcome
  chunkFinalizeOk : Bool
  singleOk : Bool

/-- The orchestrator launches one independent download per resource. -/
def runAll (xs : List downloadInput) : List (List fsEvent × List downloadResult) :=
  xs.map (fun x => download x.r x.openOk x.allocOk x.outcomes x.chunkFinalizeOk x.singleOk)

/-! ### Single-stream downloader (`app/download.go`, `downloadSingle`) -/

/-- The flag set passed to `os.OpenFile`. -/
structure openFlags where
  create : Bool
  wronly : Bool
  append : Bool
  trunc : Bool
deriving DecidableEq

/-- Failure cases of `downloadSingle`. -/
inductive singleError
  | httpStatusNotOK (status : ℤ)
  | openFailed
  | copyFailed
  | finalizeFailed
deriving DecidableEq

/-- The observable behaviour of one `downloadSingle` call. -/
structure singleRun where
  rangeRequested : Bool
  effectiveOffset : ℤ
  openArgs : Option (openFlags × ℤ)
  result : Except singleError Unit

/-- `getResumeOffset` (`diskspace_unix.go`): the size of the `.part` file, or
0 when `os.Stat` fails (file absent). -/
def getResumeOffset (partExists : Bool) (partSize : ℤ) : ℤ :=
  if partExists then partSize else 0

/-- `downloadSingle`: resumes from the `.part` size, sends a `Range` header
when the offset is positive, accepts only 200/206, resets the offset when the
server ignored the range request, and opens the `.part` with
`O_CREATE | O_WRONLY` plus `O_APPEND` (positive offset) or `O_TRUNC`
(otherwise) at mode `0o600`.  `status` is the GET response status;
`openOk`/`copyOk`/`finalizeOk` carry the file-system outcomes. -/
def downloadSingle (partExists : Bool) (partSize : ℤ) (status : ℤ)
    (openOk copyOk finalizeOk : Bool) : singleRun :=
  if status ≠ 200 ∧ status ≠ 206 then
    { rangeRequested := decide (0 < getResumeOffset partExists partSize),
      effectiveOffset := getResumeOffset partExists partSize,
      openArgs := none,
      result := .error (.httpStatusNotOK status) }
  else
    { rangeRequested := decide (0 < getResumeOffset partExists partSize),
      effectiveOffset :=
        if 0 < getResumeOffset partExists partSize ∧ status ≠ 206 then 0
        else getResumeOffset partExists partSize,
      openArgs := some
        ({ create := true, wronly := true,
           append := decide (0 <
             if 0 < getResumeOffset partExists partSize ∧ status ≠ 206 then 0
             else getResumeOffset partExists partSize),
           trunc := !decide (0 <
             if 0 < getResumeOffset partExists partSize ∧ status ≠ 206 then 0
             else getResumeOffset partExists partSize) }, 0o600),
      result :=
        if !openOk then .error .openFailed
        else if !copyOk then .error .copyFailed
        else if !finalizeOk then .error .finalizeFailed
        else .ok () }

/-! ### Rate parsing (`app/helpers.go`, `parseRate`) -/

def kilo : ℤ := 1024

def mega : ℤ := kilo * kilo

def giga : ℤ := kilo * mega

/-- The whitespace set of `strings.TrimSpace` restricted to ASCII (the
Unicode space classes beyond ASCII are not modelled; no claim exercises
them). -/
def goIsSpace (c : Char) : Bool :=
  c = ' ' ∨ c = '\t' ∨ c = '\n' ∨ c = '\r' ∨ c = Char.ofNat 11 ∨ c = Char.ofNat 12

/-- `strings.TrimSpace`. -/
def goTrimSpace (s : String) : String :=
  String.mk (((s.data.dropWhile goIsSpace).reverse.dropWhile goIsSpace).reverse)

/-- `strings.ToUpper` on the ASCII range (`Char.toUpper` upcases `a`-`z`). -/
def goToUpper (s : String) : String :=
  String.mk (s.data.map Char.toUpper)

/-- The exact value produced by `strconv.ParseFloat`: NaN, an infinity, or a
finite decimal `num / 10^den10`.  A finite float is a rounding of this exact
value; every concrete input in the theorems below is exactly representable,
where the two coincide. -/
inductive floatVal
  | nan
  | inf (neg : Bool)
  | finite (num : ℤ) (den10 : ℕ)
deriving DecidableEq

/-- Strip an optional leading sign, returning whether it was `-`. -/
def splitSign : List Char → Bool × List Char
  | '-' :: rest => (true, rest)
  | '+' :: rest => (false, rest)
  | cs => (false, cs)

/-- The value of a digit string, most significant first. -/
def digitsToNat (cs : List Char) : ℕ :=
  cs.foldl (fun a c => 10 * a + (c.toNat - '0'.toNat)) 0

/-- Split a character list on a separator (like `strings.Split`). -/
def splitOnChar (sep : Char) : List Char → List (List Char)
  | [] => [[]]
  | c :: rest =>
      if c = sep then [] :: splitOnChar sep rest
      else
        match splitOnChar sep rest with
        | [] => [[c]]
        | h :: t => (c :: h) :: t

/-- Parse `digits[.digits]` (at least one digit somewhere, as in
`strconv.ParseFloat`) into mantissa value and fractional length. -/
def parseMantissa (cs : List Char) : Option (ℕ × ℕ) :=
  match splitOnChar '.' cs with
  | [ip] =>
      if ip ≠ [] ∧ ip.all Char.isDigit then some (digitsToNat ip, 0) else none
  | [ip, fp] =>
      if (ip ≠ [] ∨ fp ≠ []) ∧ ip.all Char.isDigit ∧ fp.all Char.isDigit then
        some (digitsToNat (ip ++ fp), fp.length)
      else none
  | _ => none

/-- Parse an exponent part `[sign]digits`. -/
def parseExpPart (cs : List Char) : Option ℤ :=
  if (splitSign cs).2 ≠ [] ∧ (splitSign cs).2.all Char.isDigit then
    some (if (splitSign cs).1 then -((digitsToNat (splitSign cs).2 : ℤ))
          else (digitsToNat (splitSign cs).2 : ℤ))
  else none

/-- Apply a base-10 exponent to an exact decimal. -/
def applyExp (num : ℤ) (den10 : ℕ) (e : ℤ) : ℤ × ℕ :=
  if 0 ≤ e then (num * 10 ^ e.toNat, den10) else (num, den10 + (-e).toNat)

/-- `strconv.ParseFloat` on an upper-cased input, as an exact value: the
special spellings NAN/INF/INFINITY (optionally signed), else
`[sign]digits[.digits][E[sign]digits]`.  Hexadecimal floats and digit-group
underscores are not modelled (no caller can produce them here: the claims
exercise plain decimals). -/
def goParseFloat (cs0 : List Char) : Option floatVal :=
  if (splitSign cs0).2 = "NAN".data then some .nan
  else if (splitSign cs0).2 = "INF".data ∨ (splitSign cs0).2 = "INFINITY".data then
    some (.inf (splitSign cs0).1)
  else
    match splitOnChar 'E' (splitSign cs0).2 with
    | [m] =>
        (parseMantissa m).map (fun p =>
          .finite (if (splitSign cs0).1 then -(p.1 : ℤ) else (p.1 : ℤ)) p.2)
    | [m, e] =>
        match parseMantissa m, parseExpPart e with
        | some p, some ex =>
            some (.finite
              (applyExp (if (splitSign cs0).1 then -(p.1 : ℤ) else (p.1 : ℤ)) p.2 ex).1
              (applyExp (if (splitSign cs0).1 then -(p.1 : ℤ) else (p.1 : ℤ)) p.2 ex).2)
        | _, _ => none
    | _ => none

/-- The error cases of `parseRate` (Go returns distinct `fmt.Errorf`
messages; only their identity matters). -/
inductive rateError
  | invalidRate
  | invalidRateValue
  | rateTooLarge
deriving DecidableEq

/-- The suffix dispatch of `parseRate`: a trailing G/M/K selects the
multiplier and is stripped. -/
def suffixSplit (cs : List Char) : ℤ × List Char :=
  match cs.getLast? with
  | some 'G' => (giga, cs.dropLast)
  | some 'M' => (mega, cs.dropLast)
  | some 'K' => (kilo, cs.dropLast)
  | _ => (1, cs)

/-- `parseRate` from `app/helpers.go`.  All arithmetic is exact: the Go
comparison `result > float64(math.MaxInt64)` compares against `2^63` (the
float rounding of `MaxInt64`), modelled by cross-multiplying with the
denominator; `int64(result)` truncates toward zero, which for the
non-negative `result` reaching it is Euclidean division. -/
def parseRate (s : String) : Except rateError ℤ :=
  if s = "" ∨ s = "0" then .ok 0
  else
    match goParseFloat (suffixSplit (goToUpper (goTrimSpace s)).data).2 with
    | none => .error .invalidRate
    | some .nan => .error .invalidRateValue
    | some (.inf _) => .error .invalidRateValue
    | some (.finite num den10) =>
        if num < 0 then .error .invalidRateValue
        else if (9223372036854775808 : ℤ) * 10 ^ den10 <
            num * (suffixSplit (goToUpper (goTrimSpace s)).data).1 then
          .error .rateTooLarge
        else .ok (num * (suffixSplit (goToUpper (goTrimSpace s)).data).1 / 10 ^ den10)

/-! ### Byte and progress formatting (`progress.go`, `formatBytes`) -/

/-- Decimal digit characters, most significant first, with explicit fuel
(mirroring the fuelled `Nat.toDigits` scheme Go's and Lean's printers use);
`decRepr` supplies sufficient fuel. -/
def decReprCore : ℕ → ℕ → List Char
  | 0, _ => []
  | fuel + 1, n =>
      if n < 10 then [Nat.digitChar n]
      else decReprCore fuel (n / 10) ++ [Nat.digitChar (n % 10)]

/-- The decimal representation of a natural number (`fmt`'s `%d` on
non-negative values). -/
def decRepr (n : ℕ) : String :=
  String.mk (decReprCore (n + 1) n)

/-- `fmt`'s `%d` on a possibly negative integer. -/
def intRepr (n : ℤ) : String :=
  if n < 0 then "-" ++ decRepr (-n).toNat else decRepr n.toNat

/-- `strings.Repeat` of a single character (Go panics on a negative count;
callers below only pass naturals). -/
def repChar (c : Char) (n : ℕ) : String :=
  String.mk (List.replicate n c)

/-- Right-align into a field of `w` cells (`fmt`'s `%3.0f` padding). -/
def padLeft (s : String) (w : ℕ) : String :=
  repChar ' ' (w - s.length) ++ s

/-- Round-half-even of the exact quotient `a / b` for `b > 0` — the rounding
`fmt` applies when printing a float with `%.0f`/`%.1f`. -/
def rheDiv (a b : ℤ) : ℤ :=
  if 2 * (a % b) < b then a / b
  else if b < 2 * (a % b) then a / b + 1
  else if a / b % 2 = 0 then a / b else a / b + 1

/-- `formatBytes`' fractional branch: `%.1f` of `bytes/unit`, exactly. -/
def fmt1 (bytes unit : ℤ) : String :=
  intRepr (rheDiv (10 * bytes) unit / 10) ++ "." ++
    decRepr (rheDiv (10 * bytes) unit % 10).toNat

/-- `formatBytes` from `app/helpers.go`.  The Go float divisions are exact on
every value printed in a theorem below. -/
def formatBytes (bytes : ℤ) : String :=
  if giga ≤ bytes then fmt1 bytes giga ++ "GB"
  else if mega ≤ bytes then fmt1 bytes mega ++ "MB"
  else if kilo ≤ bytes then fmt1 bytes kilo ++ "KB"
  else intRepr bytes ++ "B"

/-! ### Progress bar (`progress.go`, `formatProgressBar`) -/

def progressBarWidth : ℕ := 30

/-- The filled cell count of `formatProgressBar` for `total > 0`: Go computes
`pct := float64(current)/float64(total)`, clamps `pct` at 1, and converts
`int(pct * 30)` — truncation toward zero, exactly `(30*current) tdiv total`
under the clamp. -/
def barFilled (current total : ℤ) : ℤ :=
  if total < current then 30 else Int.tdiv (30 * current) total

/-- What the specification text prescribes instead: `filled = round(pct ×
width)` with `pct` clamped to `[0, 1]` (round-half-up shown; any rounding of
halves gives 8 at the counterexample below while the code gives 7). -/
def barFilledSpec (current total : ℤ) : ℤ :=
  (60 * max 0 (min current total) + total) / (2 * total)

/-- The percent figure `%3.0f` prints: round-half-even of `pct * 100` with
`pct` clamped at 1. -/
def pctDisplay (current total : ℤ) : ℤ :=
  if total < current then 100 else rheDiv (100 * current) total

/-- `formatProgressBar` from `progress.go`: `[????…]` plus the current byte
count when the total is unknown, otherwise the bar, the padded percentage
and `current/total`.  (Go would panic on a negative `current` via
`strings.Repeat`; counters are non-negative, and the model clamps at 0.) -/
def formatProgressBar (current total : ℤ) : String :=
  if total ≤ 0 then
    "[" ++ repChar '?' progressBarWidth ++ "] " ++ formatBytes current
  else
    "[" ++ repChar '█' (barFilled current total).toNat ++
      repChar '░' (progressBarWidth - (barFilled current total).toNat) ++ "] " ++
      padLeft (intRepr (pctDisplay current total)) 3 ++ "% " ++
      formatBytes current ++ "/" ++ formatBytes total

/-! ### Filename resolution (`app/download.go`, `getResourceInformation`) -/

/-- `path/filepath.Base` with the Unix separator: `"."` for the empty path,
`"/"` when the path is all separators, otherwise the last component after
stripping trailing separators. -/
def filepathBase (p : String) : String :=
  if p = "" then "."
  else
    match p.data.reverse.dropWhile (fun c => c = '/') with
    | [] => "/"
    | c :: rest => String.mk (((c :: rest).takeWhile (fun c => c ≠ '/')).reverse)

/-- Scan of `filepath.Ext`, over the reversed character list: walking from
the end, a separator means no extension, the first `.` yields the suffix it
starts. -/
def extAux : List Char → List Char → String
  | _, [] => ""
  | acc, c :: rest =>
      if c = '/' then ""
      else if c = '.' then String.mk ('.' :: acc)
      else extAux (c :: acc) rest

/-- `path/filepath.Ext`: the suffix beginning at the final dot in the final
path element, empty if there is none. -/
def filepathExt (p : String) : String :=
  extAux [] p.data.reverse

/-- `findExtension` from `app/helpers.go`.  `mimeExt` abstracts
`mime.ExtensionsByType`'s first result (with its leading dot), whose default
table is platform-dependent; the hard-coded overrides are faithful.  An
error or empty list maps to `none`; Go then answers `"unknown"`.  The
`strings.TrimPrefix(ext[0], ".")` call is the final branch. -/
def findExtension (mimeExt : String → Option String) (mimeType : String) : String :=
  if mimeType = "image/jpeg" then "jpg"
  else if mimeType = "video/mp4" then "mp4"
  else
    match mimeExt mimeType with
    | none => "unknown"
    | some e => String.mk (if e.data.head? = some '.' then e.data.tail else e.data)

/-- The filename resolution of `getResourceInformation`.  `cdFilename` is the
`filename` parameter of a successfully parsed `Content-Disposition` header
(`none` when the header is absent or unparsable; a missing parameter is the
empty string, whose basename `"."` is ignored); `urlPath` is the parsed URL's
path.  The empty string stands for Go's zero-value `r.filename` before
assignment — `filepathBase` never returns it. -/
def resolveFilename (mimeExt : String → Option String) (cdFilename : Option String)
    (urlPath contentType : String) : String :=
  let cdName :=
    match cdFilename with
    | some v => if filepathBase v ≠ "." ∧ filepathBase v ≠ "/" then filepathBase v else ""
    | none => ""
  if cdName ≠ "" then cdName
  else
    let basename0 := filepathBase urlPath
    let basename :=
      if basename0 = "" ∨ basename0 = "." ∨ basename0 = "/" then "download" else basename0
    if contentType ≠ "" ∧ filepathExt basename = "" then
      if findExtension mimeExt contentType ≠ "unknown" then
        basename ++ "." ++ findExtension mimeExt contentType
      else basename
    else basename

/-! ### Filename deduplication (`app/helpers.go`, `deduplicateFilenames`) -/

/-- `strings.TrimSuffix`: strip `suf` when it is a suffix, else return the
string unchanged. -/
def trimSuffix (s suf : String) : String :=
  if suf.data.isSuffixOf s.data then
    String.mk (s.data.take (s.data.length - suf.data.length))
  else s

/-- The candidate `fmt.Sprintf("%s_%d%s", base, counter, ext)`. -/
def candName (base ext : String) (k : ℕ) : String :=
  base ++ "_" ++ decRepr k ++ ext

/-- The `for { candidate := …; if !used[candidate] { … break }; counter++ }`
loop, with fuel bounding the tries (`findFreeName` supplies enough fuel for
termination, proved below). -/
def findFreeFrom (used : List String) (base ext : String) : ℕ → ℕ → String
  | 0, k => candName base ext k
  | fuel + 1, k =>
      if candName base ext k ∈ used then findFreeFrom used base ext fuel (k + 1)
      else candName base ext k

/-- The renaming loop starting at counter 1.  `used.length + 1` candidates
always include a free one because candidate names are injective in the
counter. -/
def findFreeName (used : List String) (base ext : String) : String :=
  findFreeFrom used base ext (used.length + 1) 1

/-- `deduplicateFilenames` from `app/helpers.go` over the ordered resource
filenames: `used` starts as the seeded reserved set (the non-directory
entries of the output directory; empty when the directory string is empty),
every kept or assigned name is reserved, and a colliding name is rewritten
via `base_k.ext` with `ext = filepath.Ext(name)`. -/
def deduplicateFilenames (used : List String) : List String → List String
  | [] => []
  | name :: rest =>
      if name ∈ used then
        findFreeName used (trimSuffix name (filepathExt name)) (filepathExt name) ::
          deduplicateFilenames
            (findFreeName used (trimSuffix name (filepathExt name)) (filepathExt name) :: used)
            rest
      else
        name :: deduplicateFilenames (name :: used) rest

/-! ### Flag validation (`app/app.go`, `parseFlags`) -/

/-- The configuration `parseFlags` stores on the application. -/
structure flagConfig where
  chunkSize : ℤ
  outputDir : String
  verbose : Bool
  rateLimit : ℤ
deriving DecidableEq

/-- Failure cases of `parseFlags`. -/
inductive flagError
  | versionRequested
  | invalidLimit (e : rateError)
  | invalidChunks
deriving DecidableEq

/-- Modelled from the spec: the current `parseFlags` of `app/app.go` — the
revision that validates the `-chunks` flag, which `app_test.go`'s
"chunks too low"/"chunks too high" cases exercise — is not among the sources;
per spec §6, `-version` short-circuits, the `-limit` string goes through
`parseRate` (source-modelled above), and the chunk count must satisfy
`1 ≤ N ≤ 99` (validated). -/
def parseFlags (version verbose : Bool) (chunks : ℤ) (limit output : String) :
    Except flagError flagConfig :=
  if version then .error .versionRequested
  else
    match parseRate limit with
    | .error e => .error (.invalidLimit e)
    | .ok rate =>
        if chunks < 1 ∨ 99 < chunks then .error .invalidChunks
        else .ok { chunkSize := chunks, outputDir := output, verbose := verbose,
                   rateLimit := rate }

/-==================== theorems ====================-/

theorem chunkLoop_length : ∀ (k : ℕ) (s c r : ℤ), (chunkLoop s c r k).length = k := by
  intro k
  induction k with
  | zero => intro s c r; rfl
  | succ k ih =>
      intro s c r
      simp only [chunkLoop]
      split <;> simp [ih]

theorem chunkLoop_sizes : ∀ (k : ℕ) (s c r : ℤ), 0 ≤ r → r ≤ (k : ℤ) →
    chunkSizes (chunkLoop s c r k) =
      List.replicate r.toNat (c + 1) ++ List.replicate (k - r.toNat) c := by
  intro k
  induction k with
  | zero =>
      intro s c r h0 h1
      have : r = 0 := by omega
      subst this
      simp [chunkLoop, chunkSizes]
  | succ k ih =>
      intro s c r h0 h1
      simp only [chunkLoop]
      by_cases hr : 0 < r
      · rw [if_pos hr]
        have h2 : r.toNat = (r - 1).toNat + 1 := by omega
        simp only [chunkSizes, List.map_cons] at *
        rw [ih (s + c + 1) c (r - 1) (by omega) (by omega)]
        rw [h2, List.replicate_succ, Nat.succ_sub_succ, List.cons_append]
        congr 1
        ring
      · rw [if_neg hr]
        have : r = 0 := by omega
        subst this
        simp only [chunkSizes, List.map_cons] at *
        rw [ih (s + c) c 0 (by omega) (by omega)]
        simp [List.replicate_succ]
        ring

theorem chunkLoop_contiguous : ∀ (k : ℕ) (s c r : ℤ), 1 ≤ c →
    contiguousFrom s (chunkLoop s c r k) := by
  intro k
  induction k with
  | zero => intro s c r h; trivial
  | succ k ih =>
      intro s c r h
      simp only [chunkLoop]
      split
      · exact ⟨rfl, by omega, by simpa using ih (s + c + 1) c (r - 1) h⟩
      · exact ⟨rfl, by omega, by simpa using ih (s + c) c r h⟩

/-- C1: for positive `length` and `n`, `getChunks` produces contiguous
inclusive ranges starting at 0 whose sizes cover exactly `length` bytes
(hence they partition `[0, length-1]`); the chunk count is `min n length`;
with `n' = min n length`, the first `length mod n'` chunks have size
`length / n' + 1` and the rest `length / n'`; the concrete examples of the
specification hold, and non-positive inputs yield the empty plan. -/
theorem getChunks_spec :
    (∀ L n : ℤ, 0 < L → 0 < n →
      contiguousFrom 0 (getChunks L n) ∧
      chunksSpan (getChunks L n) = L ∧
      (getChunks L n).length = (min n L).toNat ∧
      chunkSizes (getChunks L n) =
        List.replicate (L % min n L).toNat (L / min n L + 1) ++
          List.replicate ((min n L).toNat - (L % min n L).toNat) (L / min n L)) ∧
    (∀ L n : ℤ, L ≤ 0 ∨ n ≤ 0 → getChunks L n = []) ∧
    getChunks 100 5 = [(0,19),(20,39),(40,59),(60,79),(80,99)] ∧
    getChunks 3 5 = [(0,0),(1,1),(2,2)] ∧
    getChunks 1 5 = [(0,0)] := by
  refine ⟨?_, ?_, by decide, by decide, by decide⟩
  · intro L n hL hn
    have hcl : getChunks L n = chunkLoop 0 (L / min n L) (L % min n L) (min n L).toNat := by
      simp only [getChunks, if_neg (by omega : ¬(L ≤ 0 ∨ n ≤ 0))]
      have : (if L < n then L else n) = min n L := by
        rcases le_or_lt n L with h | h
        · rw [if_neg (by omega), min_eq_left h]
        · rw [if_pos h, min_eq_right (by omega)]
      rw [this]
    have hN : 0 < min n L := by omega
    have hrem0 : 0 ≤ L % min n L := Int.emod_nonneg L (by omega)
    have hremN : L % min n L < min n L := Int.emod_lt_of_pos L hN
    have hdiv1 : 1 ≤ L / min n L := by
      rw [Int.le_ediv_iff_mul_le hN]
      omega
    have hrk : (L % min n L) ≤ ((min n L).toNat : ℤ) := by omega
    constructor
    · rw [hcl]; exact chunkLoop_contiguous _ _ _ _ hdiv1
    constructor
    · rw [hcl]
      unfold chunksSpan
      rw [chunkLoop_sizes _ _ _ _ hrem0 hrk]
      rw [List.sum_append, List.sum_replicate, List.sum_replicate]
      have e1 : ((L % min n L).toNat : ℤ) = L % min n L := by omega
      have e2 : (((min n L).toNat - (L % min n L).toNat : ℕ) : ℤ) = min n L - L % min n L := by
        omega
      rw [nsmul_eq_mul, nsmul_eq_mul, e1, e2]
      have h4 := Int.ediv_add_emod L (min n L)
      linear_combination h4
    constructor
    · rw [hcl, chunkLoop_length]
    · rw [hcl]
      exact chunkLoop_sizes _ _ _ _ hrem0 hrk
  · intro L n h
    simp only [getChunks, if_pos h]

/-- Witness for C1: the universally quantified parts applied at `length = 7`,
`n = 3` and at a non-positive length. -/
theorem getChunks_spec_witness :
    contiguousFrom 0 (getChunks 7 3) ∧ chunksSpan (getChunks 7 3) = 7 ∧
      getChunks 0 4 = [] :=
  ⟨(getChunks_spec.1 7 3 (by decide) (by decide)).1,
   (getChunks_spec.1 7 3 (by decide) (by decide)).2.1,
   getChunks_spec.2.1 0 4 (Or.inl (by decide))⟩

theorem refill_rate (rl : rateLimiter) (now : ℤ) : (refill rl now).rate = rl.rate := by
  simp only [refill]
  split <;> rfl

theorem refill_inv (rl : rateLimiter) (now : ℤ) (h : Inv rl) : Inv (refill rl now) := by
  simp only [Inv, refill] at *
  split
  · rename_i hpos
    dsimp only
    omega
  · exact h

theorem waitForTokens_inv : ∀ (times : List ℤ) (rl : rateLimiter) (n : ℤ)
    (rl' : rateLimiter) (rest : List ℤ), Inv rl → 0 ≤ n →
    waitForTokens rl n times = some (rl', rest) → Inv rl' ∧ rl'.rate = rl.rate := by
  intro times
  induction times with
  | nil =>
      intro rl n rl' rest _ _ h
      simp [waitForTokens] at h
  | cons now rest0 ih =>
      intro rl n rl' rest hInv hn h
      simp only [waitForTokens] at h
      split at h
      · rename_i hle
        rw [Option.some.injEq, Prod.mk.injEq] at h
        obtain ⟨h1, _⟩ := h
        subst h1
        have hi := refill_inv rl now hInv
        have hr := refill_rate rl now
        simp only [Inv] at *
        exact ⟨⟨by omega, by omega⟩, hr⟩
      · have := ih (refill rl now) n rl' rest (refill_inv rl now hInv) hn h
        exact ⟨this.1, this.2.trans (refill_rate rl now)⟩

theorem waitLoop_inv : ∀ (fuel : ℕ) (rl : rateLimiter) (remaining : ℤ)
    (times : List ℤ) (rl' : rateLimiter), Inv rl →
    (waitLoop rl remaining times fuel).1 = some rl' → Inv rl' ∧ rl'.rate = rl.rate := by
  intro fuel
  induction fuel with
  | zero =>
      intro rl remaining times rl' hInv h
      simp only [waitLoop] at h
      split at h
      · rw [Option.some.injEq] at h
        subst h
        exact ⟨hInv, rfl⟩
      · simp at h
  | succ fuel ih =>
      intro rl remaining times rl' hInv h
      simp only [waitLoop] at h
      split at h
      · rw [Option.some.injEq] at h
        subst h
        exact ⟨hInv, rfl⟩
      · rename_i hrem
        split at h
        · simp at h
        · rename_i rl2 rest heq
          have hreq : 0 ≤ min remaining rl.rate := by
            have := hInv.1
            have := hInv.2
            omega
          have h2 := waitForTokens_inv times rl (min remaining rl.rate) rl2 rest hInv hreq heq
          have h3 := ih rl2 (remaining - min remaining rl.rate) rest rl' h2.1 h
          exact ⟨h3.1, h3.2.trans h2.2⟩

theorem waitLoop_requests : ∀ (fuel : ℕ) (rl : rateLimiter) (remaining : ℤ)
    (times : List ℤ) (q : ℤ), Inv rl → 0 < rl.rate →
    q ∈ (waitLoop rl remaining times fuel).2 → 0 < q ∧ q ≤ rl.rate ∧ q ≤ remaining := by
  intro fuel
  induction fuel with
  | zero =>
      intro rl remaining times q _ _ hq
      simp only [waitLoop] at hq
      split at hq <;> simp at hq
  | succ fuel ih =>
      intro rl remaining times q hInv hrate hq
      simp only [waitLoop] at hq
      split at hq
      · simp at hq
      · rename_i hrem
        split at hq
        · simp only [List.mem_singleton] at hq
          subst hq
          omega
        · rename_i rl2 rest heq
          simp only [List.mem_cons] at hq
          rcases hq with rfl | hq
          · omega
          · have hreq : 0 ≤ min remaining rl.rate := by omega
            have h2 := waitForTokens_inv times rl (min remaining rl.rate) rl2 rest hInv hreq heq
            have h3 := ih rl2 (remaining - min remaining rl.rate) rest q h2.1
              (by rw [h2.2]; exact hrate) hq
            refine ⟨h3.1, ?_, by omega⟩
            rw [← h2.2]
            exact h3.2.1

theorem waitLoop_sum : ∀ (fuel : ℕ) (rl : rateLimiter) (remaining : ℤ)
    (times : List ℤ) (rl' : rateLimiter),
    (waitLoop rl remaining times fuel).1 = some rl' →
    ((waitLoop rl remaining times fuel).2).sum = max remaining 0 := by
  intro fuel
  induction fuel with
  | zero =>
      intro rl remaining times rl' h
      by_cases hrem : remaining ≤ 0
      · simp only [waitLoop, if_pos hrem, List.sum_nil]
        omega
      · simp only [waitLoop, if_neg hrem] at h
        exact Option.noConfusion h
  | succ fuel ih =>
      intro rl remaining times rl' h
      by_cases hrem : remaining ≤ 0
      · simp only [waitLoop, if_pos hrem, List.sum_nil]
        omega
      · simp only [waitLoop, if_neg hrem] at h ⊢
        rcases heq : waitForTokens rl (min remaining rl.rate) times with _ | ⟨rl2, rest⟩
        · rw [heq] at h
          exact Option.noConfusion h
        · rw [heq] at h
          dsimp only at h ⊢
          simp only [List.sum_cons]
          have h3 := ih rl2 (remaining - min remaining rl.rate) rest rl' h
          rw [h3]
          omega

/-- C5: the token-bucket invariant `0 ≤ tokens ≤ rate` holds at creation for
every positive rate and is preserved (together with the rate itself) by every
completed `wait` call; `wait` is a no-op when `rate = 0`; each internal
iteration requests `min remaining rate` tokens, so every request is positive
and bounded by both `rate` and `n`; over a completed call the requests sum to
exactly `max n 0`. -/
theorem rateLimiter_spec :
    (∀ r now : ℤ, 0 < r → Inv (newRateLimiter r now)) ∧
    (∀ (rl : rateLimiter) (n : ℤ) (times : List ℤ) (rl' : rateLimiter), Inv rl →
      (wait rl n times).1 = some rl' → Inv rl' ∧ rl'.rate = rl.rate) ∧
    (∀ (rl : rateLimiter) (n : ℤ) (times : List ℤ), rl.rate = 0 →
      wait rl n times = (some rl, [])) ∧
    (∀ (rl : rateLimiter) (n : ℤ) (times : List ℤ) (q : ℤ), Inv rl → 0 < rl.rate →
      q ∈ (wait rl n times).2 → 0 < q ∧ q ≤ rl.rate ∧ q ≤ n) ∧
    (∀ (rl : rateLimiter) (n : ℤ) (times : List ℤ) (rl' : rateLimiter), 0 < rl.rate →
      (wait rl n times).1 = some rl' → ((wait rl n times).2).sum = max n 0) := by
  refine ⟨?_, ?_, ?_, ?_, ?_⟩
  · intro r now hr
    simp only [Inv, newRateLimiter]
    omega
  · intro rl n times rl' hInv h
    unfold wait at h
    split at h
    · rw [Option.some.injEq] at h
      subst h
      exact ⟨hInv, rfl⟩
    · exact waitLoop_inv n.toNat rl n times rl' hInv h
  · intro rl n times h0
    unfold wait
    rw [if_pos h0]
  · intro rl n times q hInv hrate hq
    unfold wait at hq
    rw [if_neg (by omega)] at hq
    exact waitLoop_requests n.toNat rl n times q hInv hrate hq
  · intro rl n times rl' hrate h
    unfold wait at *
    rw [if_neg (by omega)] at *
    exact waitLoop_sum n.toNat rl n times rl' h

/-- Witness for C5: the creation invariant at rate 5, invariant preservation
through a concrete completed `wait`, the `rate = 0` no-op, and the request
bound, all at concrete inputs. -/
theorem rateLimiter_spec_witness :
    Inv (newRateLimiter 5 0) ∧
    (Inv { rate := 5, tokens := 2, lastRefill := 1000000000 } ∧
      ({ rate := 5, tokens := 2, lastRefill := 1000000000 } : rateLimiter).rate =
        ({ rate := 5, tokens := 5, lastRefill := 0 } : rateLimiter).rate) ∧
    wait { rate := 0, tokens := 0, lastRefill := 0 } 7 [] =
      (some { rate := 0, tokens := 0, lastRefill := 0 }, []) ∧
    (0 < (3:ℤ) ∧ (3:ℤ) ≤ 5 ∧ (3:ℤ) ≤ 3) :=
  ⟨rateLimiter_spec.1 5 0 (by decide),
   rateLimiter_spec.2.1 { rate := 5, tokens := 5, lastRefill := 0 } 3 [1000000000]
     { rate := 5, tokens := 2, lastRefill := 1000000000 } ⟨by decide, by decide⟩ (by decide),
   rateLimiter_spec.2.2.1 { rate := 0, tokens := 0, lastRefill := 0 } 7 [] rfl,
   rateLimiter_spec.2.2.2.1 { rate := 5, tokens := 5, lastRefill := 0 } 3 [1000000000] 3
     ⟨by decide, by decide⟩ (by decide) (by decide)⟩

theorem downloadChunked_fail (chunks : List (ℤ × ℤ)) (outcomes : List chunkOutcome)
    (finalizeOk : Bool)
    (hfail : (chunks.zip outcomes).any (fun p => fetchToFileFails p.1 p.2) = true) :
    downloadChunked chunks true true outcomes finalizeOk =
      ([.openedPart, .closedPart], false) := by
  simp [downloadChunked, hfail]

/-- C2: when a resource has a chunk plan and its part file was opened and
pre-allocated, the failure of any chunk task (bad status, copy error, or
size mismatch) makes the chunked path close the file, the orchestration
delete the `.part` and fall back to single-stream, whose success bit alone
decides the resource's result; moreover the failure predicate is exactly the
claimed one, and each resource's outcome depends only on its own inputs. -/
theorem download_chunkFailure_spec :
    (∀ (r : resource) (outcomes : List chunkOutcome) (cfin sOk : Bool),
      r.chunks ≠ [] →
      (r.chunks.zip outcomes).any (fun p => fetchToFileFails p.1 p.2) = true →
      fsEvent.closedPart ∈ (download r true true outcomes cfin sOk).1 ∧
      fsEvent.removedPart ∈ (download r true true outcomes cfin sOk).1 ∧
      fsEvent.singleStream ∈ (download r true true outcomes cfin sOk).1 ∧
      (download r true true outcomes cfin sOk).2 =
        [⟨if sOk then max r.length 0 else 0, sOk⟩]) ∧
    (∀ (chunk : ℤ × ℤ) (o : chunkOutcome),
      fetchToFileFails chunk o = false ↔
        (o.status = 200 ∨ o.status = 206) ∧ o.copyOk = true ∧
          o.written = chunk.2 - chunk.1 + 1) ∧
    (∀ (xs ys : List downloadInput) (i : ℕ), xs[i]? = ys[i]? →
      (runAll xs)[i]? = (runAll ys)[i]?) := by
  refine ⟨?_, ?_, ?_⟩
  · intro r outcomes cfin sOk hne hfail
    have hdc := downloadChunked_fail r.chunks outcomes cfin hfail
    simp [download, hne, hdc]
  · intro chunk o
    simp only [fetchToFileFails, Bool.or_eq_false_iff, Bool.and_eq_false_iff,
      Bool.not_eq_false', Bool.not_eq_false, beq_iff_eq]
    tauto
  · intro xs ys i h
    simp only [runAll, List.getElem?_map, h]

/-- Witness for C2: the concrete two-chunk plan where the second task
reports a size mismatch. -/
theorem download_chunkFailure_spec_witness :
    fsEvent.removedPart ∈
      (download ⟨[(0, 4), (5, 9)], "u", "f", "", 10⟩ true true
        [⟨206, true, 5⟩, ⟨206, true, 3⟩] true true).1 ∧
    (fetchToFileFails (0, 4) ⟨206, true, 5⟩ = false ↔
      ((206:ℤ) = 200 ∨ (206:ℤ) = 206) ∧ true = true ∧ (5:ℤ) = (4:ℤ) - 0 + 1) :=
  ⟨(download_chunkFailure_spec.1 ⟨[(0, 4), (5, 9)], "u", "f", "", 10⟩
      [⟨206, true, 5⟩, ⟨206, true, 3⟩] true true (by decide) (by decide)).2.1,
   download_chunkFailure_spec.2.1 (0, 4) ⟨206, true, 5⟩⟩

/-- C10: each `download` call sends exactly one result on `done`; a
successful download reports `max(probed length, 0)` regardless of the chunk
tasks' byte counts (the size is the probe-time length, not a transfer
count), and a failed one reports size 0. -/
theorem download_done_spec :
    ∀ (r : resource) (openOk allocOk : Bool) (outcomes : List chunkOutcome)
      (cfin sOk : Bool),
      (download r openOk allocOk outcomes cfin sOk).2.length = 1 ∧
      ∀ res ∈ (download r openOk allocOk outcomes cfin sOk).2,
        (res.ok = true → res.size = max r.length 0) ∧
        (res.ok = false → res.size = 0) := by
  intro r openOk allocOk outcomes cfin sOk
  by_cases hc : r.chunks = []
  · simp only [download, if_pos hc]
    refine ⟨rfl, ?_⟩
    intro res hres
    simp only [List.mem_singleton] at hres
    subst hres
    cases sOk <;> simp
  · simp only [download, if_neg hc]
    rcases hdc : downloadChunked r.chunks openOk allocOk outcomes cfin with ⟨ev, ok⟩
    cases ok
    · refine ⟨rfl, ?_⟩
      intro res hres
      simp only [List.mem_singleton] at hres
      subst hres
      cases sOk <;> simp
    · refine ⟨rfl, ?_⟩
      intro res hres
      simp only [List.mem_singleton] at hres
      subst hres
      simp

/-- Witness for C10: the result sent for a concrete chunkless resource. -/
theorem download_done_spec_witness :
    ((download ⟨[], "u", "f", "", 42⟩ true true [] true true).2.length = 1) ∧
    (({ size := 42, ok := true } : downloadResult).ok = true →
      ({ size := 42, ok := true } : downloadResult).size = max (42:ℤ) 0) :=
  ⟨(download_done_spec ⟨[], "u", "f", "", 42⟩ true true [] true true).1,
   ((download_done_spec ⟨[], "u", "f", "", 42⟩ true true [] true true).2
     { size := 42, ok := true } (by decide)).1⟩

/-- C3: `downloadSingle` rejects any status other than 200/206 with
`HTTPStatusNotOK` (without opening the file); a positive resume offset
answered by 200 is reset to 0 (restart from scratch), while 206 keeps it; on
accepted statuses the `.part` is opened with `O_CREATE | O_WRONLY`, plus
`O_APPEND` exactly when the effective offset is positive and `O_TRUNC`
otherwise, at mode `0o600`. -/
theorem downloadSingle_spec :
    (∀ (pe : Bool) (ps st : ℤ) (o c f : Bool), st ≠ 200 → st ≠ 206 →
      (downloadSingle pe ps st o c f).result = .error (.httpStatusNotOK st) ∧
      (downloadSingle pe ps st o c f).openArgs = none) ∧
    (∀ (pe : Bool) (ps : ℤ) (o c f : Bool), 0 < getResumeOffset pe ps →
      (downloadSingle pe ps 200 o c f).effectiveOffset = 0) ∧
    (∀ (pe : Bool) (ps : ℤ) (o c f : Bool),
      (downloadSingle pe ps 206 o c f).effectiveOffset = getResumeOffset pe ps) ∧
    (∀ (pe : Bool) (ps st : ℤ) (o c f : Bool), st = 200 ∨ st = 206 →
      (downloadSingle pe ps st o c f).openArgs = some
        ({ create := true, wronly := true,
           append := decide (0 < (downloadSingle pe ps st o c f).effectiveOffset),
           trunc := !decide (0 < (downloadSingle pe ps st o c f).effectiveOffset) },
          0o600)) := by
  refine ⟨?_, ?_, ?_, ?_⟩
  · intro pe ps st o c f h1 h2
    simp [downloadSingle, h1, h2]
  · intro pe ps o c f h
    simp [downloadSingle, h]
  · intro pe ps o c f
    simp [downloadSingle]
  · intro pe ps st o c f h
    rcases h with rfl | rfl <;> simp [downloadSingle]

/-- Witness for C3: a 404 is rejected without opening; a resumed download
answered by 200 restarts from offset 0. -/
theorem downloadSingle_spec_witness :
    ((downloadSingle true 100 404 true true true).result =
        .error (.httpStatusNotOK 404) ∧
      (downloadSingle true 100 404 true true true).openArgs = none) ∧
    (downloadSingle true 100 200 true true true).effectiveOffset = 0 ∧
    (downloadSingle true 100 200 true true true).openArgs = some
      ({ create := true, wronly := true,
         append := decide
           (0 < (downloadSingle true 100 200 true true true).effectiveOffset),
         trunc := !decide
           (0 < (downloadSingle true 100 200 true true true).effectiveOffset) },
        0o600) :=
  ⟨downloadSingle_spec.1 true 100 404 true true true (by decide) (by decide),
   downloadSingle_spec.2.1 true 100 true true true (by decide),
   downloadSingle_spec.2.2.2 true 100 200 true true true (Or.inl rfl)⟩

theorem suffixSplit_pos (cs : List Char) : 0 < (suffixSplit cs).1 := by
  unfold suffixSplit
  split <;> norm_num [giga, mega, kilo]

/-- C6: the concrete rate-spec table of the specification holds — including
suffix multipliers ×1024/×1024²/×1024³ and fractional values — unparsable
strings, negatives and NaN are rejected, and every accepted rate is
non-negative (so no negative value ever parses). -/
theorem parseRate_spec :
    parseRate "" = .ok 0 ∧
    parseRate "0" = .ok 0 ∧
    parseRate "5M" = .ok 5242880 ∧
    parseRate "500K" = .ok 512000 ∧
    parseRate "1G" = .ok 1073741824 ∧
    parseRate "1.5M" = .ok 1572864 ∧
    parseRate "abc" = .error .invalidRate ∧
    parseRate "-5M" = .error .invalidRateValue ∧
    parseRate "NaN" = .error .invalidRateValue ∧
    (∀ (s : String) (v : ℤ), parseRate s = .ok v → 0 ≤ v) := by
  refine ⟨rfl, rfl, rfl, rfl, rfl, rfl, rfl, rfl, rfl, ?_⟩
  intro s v h
  unfold parseRate at h
  split at h
  · simp only [Except.ok.injEq] at h
    omega
  · rcases hp : goParseFloat (suffixSplit (goToUpper (goTrimSpace s)).data).2 with _ | fv
    · rw [hp] at h
      exact Except.noConfusion h
    · rw [hp] at h
      cases fv with
      | nan => exact Except.noConfusion h
      | inf neg => exact Except.noConfusion h
      | finite num den10 =>
          dsimp only at h
          split at h
          · exact Except.noConfusion h
          · split at h
            · exact Except.noConfusion h
            · simp only [Except.ok.injEq] at h
              subst h
              rename_i hneg _
              have hm := suffixSplit_pos (goToUpper (goTrimSpace s)).data
              exact Int.ediv_nonneg (mul_nonneg (by omega) hm.le) (pow_nonneg (by norm_num) _)

/-- Witness for C6: the non-negativity guarantee applied at the concrete
input `"5M"`. -/
theorem parseRate_spec_witness : (0 : ℤ) ≤ 5242880 :=
  parseRate_spec.2.2.2.2.2.2.2.2.2 "5M" 5242880 parseRate_spec.2.2.1

/-- Counterexample for C8: the specification says `filled = round(pct ×
width)`, but at `current = 25`, `total = 100` (pct 0.25, pct × width = 7.5)
the code truncates to 7 filled cells while any rounding of 7.5 gives 8; the
rendered bar indeed carries 7 filled cells. -/
theorem formatProgressBar_round_counterexample :
    barFilled 25 100 = 7 ∧ barFilledSpec 25 100 = 8 ∧
      barFilled 25 100 ≠ barFilledSpec 25 100 ∧
      ((formatProgressBar 25 100).data.count '█') = 7 := by
  refine ⟨by decide, by decide, by decide, by decide⟩

/-- C8 (amended): the bar is 30 cells wide with
`filled = trunc(pct × width)` — for counters in range, `⌊30·current/total⌋`
— where `pct` is clamped at 1 (so `filled` stays in `[0, 30]` and an
overshooting counter pins it at 30); when `total ≤ 0` the bar is a run of
`?` and only `current` is shown; and the concrete substring examples of the
specification hold. -/
theorem formatProgressBar_spec :
    (∀ current total : ℤ, 0 < total → 0 ≤ current → current ≤ total →
      barFilled current total = 30 * current / total ∧
      0 ≤ barFilled current total ∧ barFilled current total ≤ 30) ∧
    (∀ current total : ℤ, 0 < total → total < current →
      barFilled current total = 30) ∧
    (∀ current total : ℤ, total ≤ 0 →
      formatProgressBar current total =
        "[" ++ repChar '?' progressBarWidth ++ "] " ++ formatBytes current) ∧
    ("50%".data <:+: (formatProgressBar 50 100).data) ∧
    (" 0%".data <:+: (formatProgressBar 0 100).data) ∧
    ("100%".data <:+: (formatProgressBar 200 100).data) ∧
    ("?".data <:+: (formatProgressBar 500 0).data) ∧
    ("500B".data <:+: (formatProgressBar 500 0).data) := by
  refine ⟨?_, ?_, ?_, by decide, by decide, by decide, by decide, by decide⟩
  · intro current total ht hc hct
    have hne : ¬ total < current := by omega
    have he : barFilled current total = 30 * current / total := by
      rw [barFilled, if_neg hne, Int.tdiv_eq_ediv (by omega) (by omega)]
    refine ⟨he, ?_, ?_⟩
    · rw [he]
      exact Int.ediv_nonneg (by omega) (by omega)
    · rw [he]
      calc 30 * current / total ≤ 30 * total / total :=
            Int.ediv_le_ediv ht (by omega)
        _ = 30 := Int.mul_ediv_cancel 30 (by omega)
  · intro current total ht hlt
    rw [barFilled, if_pos hlt]
  · intro current total ht
    rw [formatProgressBar, if_pos ht]

/-- Witness for C8 (amended): the filled-cell characterisation at
`(50, 100)` and the unknown-total rendering at `(500, 0)`. -/
theorem formatProgressBar_spec_witness :
    (barFilled 50 100 = 30 * 50 / 100 ∧
      0 ≤ barFilled 50 100 ∧ barFilled 50 100 ≤ 30) ∧
    formatProgressBar 500 0 =
      "[" ++ repChar '?' progressBarWidth ++ "] " ++ formatBytes 500 :=
  ⟨formatProgressBar_spec.1 50 100 (by decide) (by decide) (by decide),
   formatProgressBar_spec.2.2.1 500 0 (by decide)⟩

theorem dropWhile_head_not (pred : Char → Bool) : ∀ (l : List Char) (c : Char)
    (rest : List Char), l.dropWhile pred = c :: rest → pred c = false := by
  intro l
  induction l with
  | nil =>
      intro c rest h
      simp [List.dropWhile] at h
  | cons a t ih =>
      intro c rest h
      rw [List.dropWhile_cons] at h
      split at h
      · exact ih c rest h
      · rename_i hna
        injection h with h1 _
        subst h1
        simpa using hna

theorem filepathBase_ne_empty (p : String) : filepathBase p ≠ "" := by
  by_cases hp : p = ""
  · rw [filepathBase, if_pos hp]
    decide
  · rw [filepathBase, if_neg hp]
    rcases hd : p.data.reverse.dropWhile (fun c => c = '/') with _ | ⟨c, rest⟩
    · simp only [hd]
      decide
    · simp only [hd]
      have hc := dropWhile_head_not (fun c => decide (c = '/')) _ _ _ hd
      rw [List.takeWhile_cons_of_pos (by simpa using hc)]
      intro heq
      have hdata := congrArg String.data heq
      simp at hdata

/-- Counterexample for C7: a `Content-Disposition` filename without an
extension is kept as-is even though a content type is present — the code
only appends a MIME-derived extension to URL-derived names, while the claim
prescribes appending it to the chosen name regardless of its origin
(`"photo"` with `image/jpeg` would become `"photo.jpg"`). -/
theorem resolveFilename_counterexample :
    resolveFilename (fun _ => none) (some "photo") "/x/y.bin" "image/jpeg" = "photo" ∧
      ("photo" : String) ≠ "photo.jpg" := by
  refine ⟨by decide, by decide⟩

/-- C7 (amended): the filename priority is (a) the basename of
`Content-Disposition`'s `filename` parameter unless it is `"."` or `"/"`,
else (b) the basename of the URL path, else (c) the literal `"download"`;
the MIME-derived extension (skipped when it is `"unknown"`) is appended to
extension-less names only in cases (b) and (c) — never to a name taken from
`Content-Disposition`. -/
theorem resolveFilename_spec :
    (∀ (me : String → Option String) (up ct v : String),
      filepathBase v ≠ "." → filepathBase v ≠ "/" →
      resolveFilename me (some v) up ct = filepathBase v) ∧
    (∀ (me : String → Option String) (up ct v : String),
      filepathBase v = "." ∨ filepathBase v = "/" →
      resolveFilename me (some v) up ct = resolveFilename me none up ct) ∧
    (∀ (me : String → Option String) (up ct : String),
      filepathBase up ≠ "." → filepathBase up ≠ "/" →
      resolveFilename me none up ct =
        if ct ≠ "" ∧ filepathExt (filepathBase up) = "" ∧
            findExtension me ct ≠ "unknown" then
          filepathBase up ++ "." ++ findExtension me ct
        else filepathBase up) ∧
    (∀ (me : String → Option String) (up ct : String),
      filepathBase up = "." ∨ filepathBase up = "/" →
      resolveFilename me none up ct =
        if ct ≠ "" ∧ findExtension me ct ≠ "unknown" then
          "download" ++ "." ++ findExtension me ct
        else "download") := by
  refine ⟨?_, ?_, ?_, ?_⟩
  · intro me up ct v h1 h2
    simp only [resolveFilename]
    have e1 : (if filepathBase v ≠ "." ∧ filepathBase v ≠ "/" then filepathBase v else "") =
        filepathBase v := if_pos ⟨h1, h2⟩
    rw [e1, if_pos (filepathBase_ne_empty v)]
  · intro me up ct v h
    simp only [resolveFilename]
    have hcond : ¬ (filepathBase v ≠ "." ∧ filepathBase v ≠ "/") := by tauto
    rw [if_neg hcond]
  · intro me up ct h1 h2
    simp only [resolveFilename]
    rw [if_neg (by simp)]
    have hb : ¬ (filepathBase up = "" ∨ filepathBase up = "." ∨ filepathBase up = "/") := by
      push_neg
      exact ⟨filepathBase_ne_empty up, h1, h2⟩
    rw [if_neg hb]
    by_cases hct : ct ≠ "" ∧ filepathExt (filepathBase up) = ""
    · rw [if_pos hct]
      by_cases hu : findExtension me ct ≠ "unknown"
      · rw [if_pos hu, if_pos ⟨hct.1, hct.2, hu⟩]
      · rw [if_neg hu, if_neg (by tauto)]
    · rw [if_neg hct, if_neg (by tauto)]
  · intro me up ct h
    simp only [resolveFilename]
    rw [if_neg (by simp)]
    have hb : filepathBase up = "" ∨ filepathBase up = "." ∨ filepathBase up = "/" := by
      tauto
    rw [if_pos hb]
    have hext : filepathExt "download" = "" := by decide
    by_cases hct : ct ≠ ""
    · rw [if_pos ⟨hct, hext⟩]
      by_cases hu : findExtension me ct ≠ "unknown"
      · rw [if_pos hu, if_pos ⟨hct, hu⟩]
      · rw [if_neg hu, if_neg (by tauto)]
    · rw [if_neg (by tauto), if_neg (by tauto)]

/-- Witness for C7 (amended): case (a) keeps `"report.pdf"` from the
header; case (c) synthesizes `"download.jpg"` for a slash-only path with a
JPEG content type. -/
theorem resolveFilename_spec_witness :
    resolveFilename (fun _ => none) (some "report.pdf") "/download" "application/pdf" =
      filepathBase "report.pdf" ∧
    resolveFilename (fun _ => none) none "/" "image/jpeg" =
      (if ("image/jpeg" : String) ≠ "" ∧
          findExtension (fun _ => none) "image/jpeg" ≠ "unknown" then
        "download" ++ "." ++ findExtension (fun _ => none) "image/jpeg"
      else "download") :=
  ⟨resolveFilename_spec.1 (fun _ => none) "/download" "application/pdf" "report.pdf"
      (by decide) (by decide),
   resolveFilename_spec.2.2.2 (fun _ => none) "/" "image/jpeg" (Or.inr (by decide))⟩

theorem digitChar_inj : ∀ a b : ℕ, a < 10 → b < 10 →
    Nat.digitChar a = Nat.digitChar b → a = b := by
  have h10 : ∀ a b : Fin 10, Nat.digitChar a = Nat.digitChar b → a = b := by decide
  intro a b ha hb h
  have := h10 ⟨a, ha⟩ ⟨b, hb⟩ h
  simpa [Fin.ext_iff] using this

theorem decReprCore_ne_nil (fuel n : ℕ) (h : 0 < fuel) : decReprCore fuel n ≠ [] := by
  cases fuel with
  | zero => omega
  | succ fuel =>
      simp only [decReprCore]
      split <;> simp

theorem decReprCore_inj : ∀ (f1 m : ℕ), m < f1 → ∀ (f2 n : ℕ), n < f2 →
    decReprCore f1 m = decReprCore f2 n → m = n := by
  intro f1
  induction f1 with
  | zero => omega
  | succ f1 ih =>
      intro m hm f2 n hn h
      cases f2 with
      | zero => omega
      | succ f2 =>
          simp only [decReprCore] at h
          by_cases h1 : m < 10 <;> by_cases h2 : n < 10
          · rw [if_pos h1, if_pos h2] at h
            injection h with hd _
            exact digitChar_inj m n h1 h2 hd
          · rw [if_pos h1, if_neg h2] at h
            have hlen := congrArg List.length h
            simp at hlen
            have hnn : n / 10 < f2 := by
              have := Nat.div_lt_self (by omega : 0 < n) (by omega : 1 < 10)
              omega
            exact absurd hlen (decReprCore_ne_nil f2 (n / 10) (by omega))
          · rw [if_neg h1, if_pos h2] at h
            have hlen := congrArg List.length h
            simp at hlen
            have hmm : m / 10 < f1 := by
              have := Nat.div_lt_self (by omega : 0 < m) (by omega : 1 < 10)
              omega
            exact absurd hlen (decReprCore_ne_nil f1 (m / 10) (by omega))
          · rw [if_neg h1, if_neg h2] at h
            obtain ⟨hxs, hd⟩ := List.append_inj' h rfl
            injection hd with hd _
            have e1 : m % 10 = n % 10 :=
              digitChar_inj _ _ (Nat.mod_lt _ (by omega)) (Nat.mod_lt _ (by omega)) hd
            have hmm : m / 10 < f1 := by
              have := Nat.div_lt_self (by omega : 0 < m) (by omega : 1 < 10)
              omega
            have hnn : n / 10 < f2 := by
              have := Nat.div_lt_self (by omega : 0 < n) (by omega : 1 < 10)
              omega
            have e2 := ih (m / 10) hmm f2 (n / 10) hnn hxs
            omega

theorem decRepr_inj : Function.Injective decRepr := by
  intro m n h
  have hd := congrArg String.data h
  simp only [decRepr] at hd
  exact decReprCore_inj (m + 1) m (by omega) (n + 1) n (by omega) hd

theorem candName_inj (base ext : String) : Function.Injective (candName base ext) := by
  intro k l h
  have hd := congrArg String.data h
  simp only [candName, String.data_append] at hd
  have h1 := List.append_cancel_right hd
  have h2 := List.append_cancel_left h1
  exact decRepr_inj (String.ext h2)

theorem exists_free_cand (used : List String) (base ext : String) :
    ∃ k, 1 ≤ k ∧ k ≤ used.length + 1 ∧ candName base ext k ∉ used := by
  by_contra hcon
  push_neg at hcon
  have hsub : (Finset.Icc 1 (used.length + 1)).image (candName base ext) ⊆
      used.toFinset := by
    intro x hx
    rw [Finset.mem_image] at hx
    obtain ⟨k, hk, rfl⟩ := hx
    rw [Finset.mem_Icc] at hk
    exact List.mem_toFinset.2 (hcon k hk.1 hk.2)
  have hcard := Finset.card_le_card hsub
  rw [Finset.card_image_of_injective _ (candName_inj base ext), Nat.card_Icc] at hcard
  have := List.toFinset_card_le used
  omega

theorem findFreeFrom_spec (used : List String) (base ext : String) :
    ∀ (fuel k : ℕ), (∃ j, k ≤ j ∧ j < k + fuel ∧ candName base ext j ∉ used) →
    ∃ j, k ≤ j ∧ findFreeFrom used base ext fuel k = candName base ext j ∧
      candName base ext j ∉ used ∧ ∀ i, k ≤ i → i < j → candName base ext i ∈ used := by
  intro fuel
  induction fuel with
  | zero =>
      intro k hex
      obtain ⟨j, hj1, hj2, _⟩ := hex
      omega
  | succ fuel ih =>
      intro k hex
      by_cases hmem : candName base ext k ∈ used
      · rw [findFreeFrom, if_pos hmem]
        have hex2 : ∃ j, k + 1 ≤ j ∧ j < (k + 1) + fuel ∧ candName base ext j ∉ used := by
          obtain ⟨j, hj1, hj2, hj3⟩ := hex
          refine ⟨j, ?_, by omega, hj3⟩
          rcases Nat.eq_or_lt_of_le hj1 with rfl | h
          · exact absurd hmem hj3
          · omega
        obtain ⟨j, hj1, hj2, hj3, hj4⟩ := ih (k + 1) hex2
        refine ⟨j, by omega, hj2, hj3, ?_⟩
        intro i hi1 hi2
        rcases Nat.eq_or_lt_of_le hi1 with rfl | h
        · exact hmem
        · exact hj4 i (by omega) hi2
      · rw [findFreeFrom, if_neg hmem]
        exact ⟨k, le_refl k, rfl, hmem, fun i h1 h2 => by omega⟩

theorem findFreeName_spec (used : List String) (base ext : String) :
    ∃ j, 1 ≤ j ∧ findFreeName used base ext = candName base ext j ∧
      candName base ext j ∉ used ∧ ∀ i, 1 ≤ i → i < j → candName base ext i ∈ used := by
  apply findFreeFrom_spec
  obtain ⟨k, h1, h2, h3⟩ := exists_free_cand used base ext
  exact ⟨k, h1, by omega, h3⟩

theorem findFreeName_not_mem (used : List String) (base ext : String) :
    findFreeName used base ext ∉ used := by
  obtain ⟨j, _, he, hn, _⟩ := findFreeName_spec used base ext
  rw [he]
  exact hn

theorem deduplicateFilenames_inv : ∀ (names used : List String),
    (∀ x ∈ deduplicateFilenames used names, x ∉ used) ∧
    (deduplicateFilenames used names).Pairwise (· ≠ ·) := by
  intro names
  induction names with
  | nil =>
      intro used
      simp [deduplicateFilenames]
  | cons name rest ih =>
      intro used
      by_cases hmem : name ∈ used
      · rw [deduplicateFilenames, if_pos hmem]
        have hc := findFreeName_not_mem used (trimSuffix name (filepathExt name))
          (filepathExt name)
        obtain ⟨ih1, ih2⟩ := ih
          (findFreeName used (trimSuffix name (filepathExt name)) (filepathExt name) :: used)
        constructor
        · intro x hx
          rcases List.mem_cons.1 hx with rfl | hx
          · exact hc
          · intro hxu
            exact ih1 x hx (List.mem_cons_of_mem _ hxu)
        · rw [List.pairwise_cons]
          refine ⟨?_, ih2⟩
          intro y hy heq
          exact ih1 y hy (heq ▸ List.mem_cons_self _ _)
      · rw [deduplicateFilenames, if_neg hmem]
        obtain ⟨ih1, ih2⟩ := ih (name :: used)
        constructor
        · intro x hx
          rcases List.mem_cons.1 hx with rfl | hx
          · exact hmem
          · intro hxu
            exact ih1 x hx (List.mem_cons_of_mem _ hxu)
        · rw [List.pairwise_cons]
          refine ⟨?_, ih2⟩
          intro y hy heq
          exact ih1 y hy (heq ▸ List.mem_cons_self _ _)

/-- C4: after `deduplicateFilenames` all chosen filenames are pairwise
distinct and none equals a seeded on-disk name; a colliding name is
rewritten to the first unreserved `base_k.ext` candidate (counters from 1,
all earlier candidates reserved); the extension split takes the trailing
suffix from the last dot; and the concrete examples of the specification
hold, both with an empty seed and with `file.zip` pre-existing on disk. -/
theorem deduplicateFilenames_spec :
    (∀ (seed names : List String),
      (deduplicateFilenames seed names).Pairwise (· ≠ ·) ∧
      ∀ x ∈ deduplicateFilenames seed names, x ∉ seed) ∧
    (∀ (used : List String) (base ext : String),
      findFreeName used base ext ∉ used ∧
      ∃ j, 1 ≤ j ∧ findFreeName used base ext = candName base ext j ∧
        ∀ i, 1 ≤ i → i < j → candName base ext i ∈ used) ∧
    filepathExt "other.tar.gz" = ".gz" ∧
    trimSuffix "other.tar.gz" (filepathExt "other.tar.gz") = "other.tar" ∧
    deduplicateFilenames [] ["file.zip", "file.zip", "other.tar.gz", "file.zip"] =
      ["file.zip", "file_1.zip", "other.tar.gz", "file_2.zip"] ∧
    deduplicateFilenames ["file.zip"] ["file.zip", "other.zip"] =
      ["file_1.zip", "other.zip"] := by
  refine ⟨?_, ?_, by decide, by decide, by decide, by decide⟩
  · intro seed names
    exact ⟨(deduplicateFilenames_inv names seed).2, (deduplicateFilenames_inv names seed).1⟩
  · intro used base ext
    refine ⟨findFreeName_not_mem used base ext, ?_⟩
    obtain ⟨j, h1, h2, _, h4⟩ := findFreeName_spec used base ext
    exact ⟨j, h1, h2, h4⟩

/-- Witness for C4: in the on-disk collision example the renamed first
resource avoids the seeded name, and the renaming loop's result is fresh for
a concrete reserved set. -/
theorem deduplicateFilenames_spec_witness :
    "file_1.zip" ∉ (["file.zip"] : List String) ∧
    findFreeName ["file.zip"] "file" ".zip" ∉ (["file.zip"] : List String) :=
  ⟨(deduplicateFilenames_spec.1 ["file.zip"] ["file.zip", "other.zip"]).2 "file_1.zip"
      (by decide),
   (deduplicateFilenames_spec.2.1 ["file.zip"] "file" ".zip").1⟩

/-- C9: `parseFlags` rejects every `-chunks` value outside `1 ≤ N ≤ 99` and
accepts every value inside the range (with the other flags at their
defaults). -/
theorem parseFlags_chunks_spec :
    (∀ N : ℤ, N < 1 ∨ 99 < N →
      parseFlags false false N "0" "." = .error .invalidChunks) ∧
    (∀ N : ℤ, 1 ≤ N → N ≤ 99 →
      parseFlags false false N "0" "." =
        .ok { chunkSize := N, outputDir := ".", verbose := false, rateLimit := 0 }) ∧
    parseFlags false false 0 "0" "." = .error .invalidChunks ∧
    parseFlags false false 100 "0" "." = .error .invalidChunks ∧
    parseFlags false false 5 "0" "." =
      .ok { chunkSize := 5, outputDir := ".", verbose := false, rateLimit := 0 } := by
  have h0 : parseRate "0" = .ok 0 := rfl
  refine ⟨?_, ?_, rfl, rfl, rfl⟩
  · intro N h
    simp only [parseFlags, Bool.false_eq_true, if_false, h0]
    rw [if_pos h]
  · intro N h1 h2
    simp only [parseFlags, Bool.false_eq_true, if_false, h0]
    rw [if_neg (by omega)]

/-- Witness for C9: rejection at `N = 100`, acceptance at `N = 5`. -/
theorem parseFlags_chunks_spec_witness :
    parseFlags false false 100 "0" "." = .error .invalidChunks ∧
    parseFlags false false 5 "0" "." =
      .ok { chunkSize := 5, outputDir := ".", verbose := false, rateLimit := 0 } :=
  ⟨parseFlags_chunks_spec.1 100 (by omega),
   parseFlags_chunks_spec.2.1 5 (by omega) (by omega)⟩

end Leech
